import Mathlib

/-
Verification model of the FMC REST client (fmc/api.py).

The development embeds the algorithmic core of the client:
the ordered name-to-identifier caches (FPResourceTable and
FPObjectTable with its recursive child-first population), the
request rate limiter of FMCClient._req, the pagination URL
handling of the listing loops, and the FPObject lifecycle
operations (create, hydrate, delete, rename, remove_child),
together with theorems about them.
-/

namespace Fmc

/-! ## Ordered dictionary model

The source keeps every cache in a Python OrderedDict mapping
object names to identifiers.  It is modelled as a list of
(name, id) pairs in insertion order.  The operations below
mirror dictionary lookup, assignment, and pop; under them keys
stay unique, and assignment to a present key keeps its position. -/

/-- Ordered name-to-id table, the model of the names OrderedDict. -/
abbrev NamesT := List (String × String)

/-- Keys of the table in stored order. -/
def odKeys (m : NamesT) : List String := m.map Prod.fst

/-- Dictionary lookup names.get(k): the value at the first entry
carrying the key, none when absent. -/
def odLookup : NamesT → String → Option String
  | [], _ => none
  | (k, v) :: rest, n => if k = n then some v else odLookup rest n

/-- Dictionary assignment names[k] = v: replaces the value in place
when the key is present, keeping its position, and appends a new
entry otherwise. -/
def odSet : NamesT → String → String → NamesT
  | [], k, v => [(k, v)]
  | (k0, v0) :: rest, k, v =>
    if k0 = k then (k, v) :: rest else (k0, v0) :: odSet rest k v

/-- Entry removal: drops every entry carrying the key (at most one
under the key-uniqueness invariant the operations maintain). -/
def odPop : NamesT → String → NamesT
  | [], _ => []
  | (k0, v0) :: rest, k =>
    if k0 = k then odPop rest k else (k0, v0) :: odPop rest k

/-- Dictionary removal names.pop(k): none models the KeyError that
Python raises when the key is absent. -/
def odPopE (m : NamesT) (k : String) : Option NamesT :=
  if (odLookup m k).isSome then some (odPop m k) else none

/-- Index of the first occurrence of a key in a list of keys; equals
the length of the list when the key is absent. -/
def idxOf : List String → String → Nat
  | [], _ => 0
  | k :: ks, n => if k = n then 0 else idxOf ks n + 1

/-! ## Rate limiter (FMCClient._req)

The client counts requests and remembers the wall-clock start of the
current window.  Clock values are modelled in whole seconds. -/

/-- Rate limiter state of FMCClient: the running request counter
req_count and the recorded window start req_time. -/
structure RLState where
  req_count : Nat
  req_time : Int
deriving DecidableEq

/-- The rate-limiting part of one FMCClient._req call at clock value
now.  The counter is incremented first; a count of 1 starts a new
window; counts strictly below 120 pass; otherwise, when less than 60
seconds have elapsed since the window start, the call sleeps for the
remaining time plus one second, and in either case the counter resets
to 1 with the window restarting at the post-sleep clock value.
Returns the new state and the seconds slept (0 when no sleep). -/
def rlStep (s : RLState) (now : Int) : RLState × Int :=
  let c := s.req_count + 1
  if c = 1 then (⟨c, now⟩, 0)
  else if c < 120 then (⟨c, s.req_time⟩, 0)
  else
    let d := now - s.req_time
    if d ≤ 60 then (⟨1, now + (60 - d + 1)⟩, 60 - d + 1)
    else (⟨1, now⟩, 0)

/-- Issue a sequence of requests at the given clock values; returns
the final state and the list of sleep durations, one per request. -/
def rlRun : RLState → List Int → RLState × List Int
  | s, [] => (s, [])
  | s, t :: ts =>
    let p := rlStep s t
    let q := rlRun p.1 ts
    (q.1, p.2 :: q.2)

/-! ## FPResourceTable.build over the drained items

The pagination loop is modelled separately below; here build is the
per-item cache update over the drained listing.  The source writes
names[name] = id for every item, with no presence check. -/

/-- FPResourceTable.build: plain dictionary assignment of name to id
for each drained listing item, in listing order. -/
def rtBuild (m : NamesT) (items : List (String × String)) : NamesT :=
  items.foldl (fun acc it => odSet acc it.1 it.2) m

/-- Value of the last listing item carrying the given name. -/
def lastMatch (items : List (String × String)) (n : String) : Option String :=
  items.foldl (fun acc it => if it.1 = n then some it.2 else acc) none

/-! ## Strings and pagination URLs -/

/-- Substring test helper over character lists. -/
def containsAux (needle : List Char) : List Char → Bool
  | [] => needle.isEmpty
  | c :: cs => needle.isPrefixOf (c :: cs) || containsAux needle cs

/-- Substring test: needle occurs somewhere inside hay, the model of
the Python in operator on strings. -/
def strContains (hay needle : String) : Bool := containsAux needle.data hay.data

/-- Lowercasing over the character data, the model of str.lower for
the ASCII type names the source handles. -/
def strLower (s : String) : String := ⟨s.data.map Char.toLower⟩

/-- The pluralisation type.lower() + s used throughout the source to
turn a declared type (for example NetworkGroup) into a table type
(networkgroups). -/
def lowerPlural (s : String) : String := strLower s ++ "s"

/-- Paging metadata of one listing response: the reported count and
the optional list of next URLs.  none for a whole response models an
empty response body. -/
structure Paging where
  count : Nat
  next : Option (List String)
deriving DecidableEq

/-- Fix-up the table build loops apply to each continuation URL: the
expanded flag is re-appended when the server dropped it. -/
def nextUrlFix (u : String) : String :=
  if strContains u "expanded=true" then u else u ++ "&expanded=true"

/-- URLs requested by the pagination while loop shared by
FPResourceTable.build and FPObjectTable.build (their URL handling is
identical), driven by the listing server responses; the fuel bounds
the number of loop iterations.  The loop stops on a falsy URL, an
empty response, a zero count, or a missing next link; an empty next
list raises in Python and likewise requests nothing further here. -/
def buildTrace (server : String → Option Paging) : Nat → Option String → List String
  | _, none => []
  | 0, some _ => []
  | Nat.succ n, some u =>
    if u = "" then []
    else
      u :: match server u with
      | none => []
      | some pg =>
        if pg.count = 0 then []
        else match pg.next with
          | some (nu :: _) => buildTrace server n (some (nextUrlFix nu))
          | some [] => []
          | none => []

/-- URLs requested by FMC.get_all_resource_instances: the same loop
shape, but the next URL from the response is used exactly as
returned, with no expanded-flag fix-up. -/
def iterTrace (server : String → Option Paging) : Nat → Option String → List String
  | _, none => []
  | 0, some _ => []
  | Nat.succ n, some u =>
    if u = "" then []
    else
      u :: match server u with
      | none => []
      | some pg =>
        if pg.count = 0 then []
        else match pg.next with
          | some (nu :: _) => iterTrace server n (some nu)
          | some [] => []
          | none => []

/-- Concrete listing server for the pagination theorems: the first
page reports a next URL that lacks the expanded flag. -/
def pgServer : String → Option Paging := fun u =>
  if u = "u/hosts?expanded=true" then some ⟨1, some ["u/hosts?o=25"]⟩
  else if u = "u/hosts?o=25" then some ⟨1, none⟩
  else if u = "u/hosts?o=25&expanded=true" then some ⟨1, none⟩
  else none

/-! ## The object graph and FPObjectTable.add_child_first

A policy object, as one table build sees it, is a finite tree: its
name, identifier, the declared type string exactly as it appears in a
parent child reference (for example NetworkGroup), and the nested
children recorded under its objects key.  The server is assumed
consistent: fetching a child by its identifier returns the subtree
stored at the reference, and a record without an objects key is
modelled by the empty child list (both make the child loop of
add_child_first a no-op). -/

/-- A policy object record with its nested children. -/
inductive ObjTree : Type where
  | mk (name oid ctype : String) (children : List ObjTree)

/-- Name of the record. -/
def ObjTree.name : ObjTree → String
  | .mk n _ _ _ => n

/-- Identifier of the record. -/
def ObjTree.oid : ObjTree → String
  | .mk _ i _ _ => i

/-- Declared type string of the record, as written in a parent child
reference. -/
def ObjTree.ctype : ObjTree → String
  | .mk _ _ c _ => c

/-- Nested children of the record. -/
def ObjTree.children : ObjTree → List ObjTree
  | .mk _ _ _ ch => ch

mutual

/-- FPObjectTable.add_child_first: for every nested reference whose
pluralised declared type matches the table type, the child record is
fetched and recursed into first; afterwards the name of the current
item is inserted, mapped to its identifier, only when not already
present. -/
def addChildFirst (T : String) : ObjTree → NamesT → NamesT
  | ObjTree.mk n i _ ch, ns =>
    let ns1 := addChildrenFirst T ch ns
    if odLookup ns1 n = none then ns1 ++ [(n, i)] else ns1

/-- The child loop of add_child_first, in listing order. -/
def addChildrenFirst (T : String) : List ObjTree → NamesT → NamesT
  | [], ns => ns
  | c :: cs, ns =>
    addChildrenFirst T cs
      (if T = lowerPlural c.ctype then addChildFirst T c ns else ns)

end

/-- FPObjectTable.build over the drained top-level listing items:
add_child_first applied to each item in order (the pagination URL
handling is modelled by buildTrace above). -/
def buildOT (T : String) (listing : List ObjTree) (ns : NamesT) : NamesT :=
  listing.foldl (fun acc t => addChildFirst T t acc) ns

mutual

/-- All records the build of a table of type T processes when it
starts from this record: the record itself plus everything reachable
through matching-type child references. -/
def matchReach (T : String) : ObjTree → List ObjTree
  | ObjTree.mk n i ty ch => ObjTree.mk n i ty ch :: matchReachL T ch

/-- Reachable records below a list of children, recursing only into
children of matching type. -/
def matchReachL (T : String) : List ObjTree → List ObjTree
  | [] => []
  | c :: cs =>
    (if T = lowerPlural c.ctype then matchReach T c else []) ++ matchReachL T cs

end

/-- Every record processed during a build of the listing. -/
def allReach (T : String) (listing : List ObjTree) : List ObjTree :=
  listing.flatMap (fun r => matchReach T r)

/-- Names of the matching-type children of a record, the ones
add_child_first recurses into. -/
def mchildNames (T : String) (t : ObjTree) : List String :=
  (t.children.filter (fun c => decide (T = lowerPlural c.ctype))).map ObjTree.name

/-- Child-first invariant of a table relative to a universe of
records: whenever the name of a processed parent is cached, every one
of its matching children is cached strictly earlier. -/
def CF (T : String) (nodes : List ObjTree) (ns : NamesT) : Prop :=
  ∀ p ∈ nodes, ∀ cn ∈ mchildNames T p, p.name ∈ odKeys ns →
    cn ∈ odKeys ns ∧ idxOf (odKeys ns) cn < idxOf (odKeys ns) p.name

/-- Closure of a universe of records under matching children. -/
def closedNodes (T : String) (nodes : List ObjTree) : Prop :=
  ∀ p ∈ nodes, ∀ c ∈ p.children, T = lowerPlural c.ctype → c ∈ nodes

/-- Functional naming: within the universe, records carrying the same
name present the same matching-children names.  This captures the
server-side uniqueness of object names within one type. -/
def fnNames (T : String) (nodes : List ObjTree) : Prop :=
  ∀ p ∈ nodes, ∀ q ∈ nodes, p.name = q.name → mchildNames T p = mchildNames T q

/-! ## Requests, records, and the FPObject operations -/

/-- An HTTP request issued through the transport, as the modelled
operations can observe it. -/
inductive HReq : Type where
  | get (url : String)
  | post (url : String) (name : String)
  | put (url : String)
  | del (url : String)
deriving DecidableEq

/-- A child descriptor inside the objects array of a record. -/
structure ChildRef where
  name : String
  oid : String
  ctype : String
deriving DecidableEq

/-- A full JSON record of a policy object, restricted to the fields
the modelled operations read: name, id, the self link, and the
optional objects array (none models an absent objects key).  The
links and metadata keys the source pops before a write are assumed
present, as they are on every record the server returns. -/
structure ObjRecord where
  name : String
  oid : String
  links : String
  objects : Option (List ChildRef)
deriving DecidableEq

/-- A server behaviour: the parsed body returned for each request,
none modelling an empty response. -/
abbrev Server := HReq → Option ObjRecord

/-- FMC._req_json: with an object id the instance URL is built from it
and a GET is issued; otherwise a given URL is fetched by GET;
otherwise, with creation data, a POST to the type listing URL is
issued.  Returns the requests issued and the response (none models
the empty-string result when nothing was requested or the response
was empty). -/
def reqJson (server : Server) (base ty : String) (oid : Option String)
    (url : Option String) (dataName : Option String) :
    List HReq × Option ObjRecord :=
  match oid with
  | some o =>
    let r := HReq.get (base ++ ty ++ "/" ++ o)
    ([r], server r)
  | none =>
    match url with
    | some u => ([HReq.get u], server (HReq.get u))
    | none =>
      match dataName with
      | some nm =>
        let r := HReq.post (base ++ ty) nm
        ([r], server r)
      | none => ([], none)

/-- Creation data for FPObject: the declared name and the declared
type (singular, as in the payload type field). -/
structure ObjData where
  name : String
  dtype : String
deriving DecidableEq

/-- FPObject.__init__ on the creation path (only data given): the
destination type is derived by pluralising the declared type, the
existing identifier is substituted when the declared name is already
in that type table, _req_json is called, and on a non-empty response
the record is stored and its name and id are written into the table.
tbl is the table of the derived type; base is the object resource URL
prefix.  Returns the requests issued, the resulting record, and the
updated table. -/
def fpCreate (server : Server) (tbl : NamesT) (base : String) (data : ObjData) :
    List HReq × Option ObjRecord × NamesT :=
  let ty := lowerPlural data.dtype
  let oid := odLookup tbl data.name
  let res := reqJson server base ty oid none (some data.name)
  match res.2 with
  | some r => (res.1, some r, odSet tbl r.name r.oid)
  | none => (res.1, none, tbl)

/-- FPObject.__init__ on the hydration path (type and json given): no
request is issued and the name and id of the record are written into
the type table by a plain dictionary assignment. -/
def fpFromJson (tbl : NamesT) (j : ObjRecord) : List HReq × NamesT :=
  ([], odSet tbl j.name j.oid)

/-- FPObject.delete: a DELETE is issued against the self link of the
record; on a non-empty response the name is popped from the owning
table (none models the KeyError when it is absent); on an empty
response the table is left as it was and no error is raised. -/
def fpDelete (server : Server) (tbl : NamesT) (json : ObjRecord) :
    List HReq × Option NamesT :=
  let r := HReq.del json.links
  match server r with
  | some _ => ([r], odPopE tbl json.name)
  | none => ([r], some tbl)

/-- FPObject.rename: an empty new name is rejected with no request;
otherwise a PUT of the edited record is issued against the self link
and the held record is replaced when the response is non-empty; when
the held record then carries the new name, the old name is popped
from the owning table (none models the KeyError when absent) and the
current name is written mapped to the current id; otherwise the table
is untouched.  Returns the requests issued and, when no error is
raised, the final table and record. -/
def fpRename (server : Server) (tbl : NamesT) (json : ObjRecord) (newName : String) :
    List HReq × Option (NamesT × ObjRecord) :=
  if newName = "" then ([], some (tbl, json))
  else
    let r := HReq.put json.links
    let j2 := match server r with
      | some resp => resp
      | none => json
    if j2.name = newName then
      ([r], (odPopE tbl json.name).map (fun t2 => (odSet t2 j2.name j2.oid, j2)))
    else ([r], some (tbl, j2))

/-- FPObject.remove_child: the record is refreshed from its self
link; the objects key is popped (the final component false models the
exception escaping when the refresh is empty or the key is absent);
the entries carrying the child name are filtered out while the type
of the last match is remembered; the PUT (whose body, the filtered
list, no claim observes) is issued only when a match was found.
Returns the requests issued, the held record after the call, the
owning table (never touched by this method), and whether the call
finished without an exception. -/
def removeChild (server : Server) (tbl : NamesT) (json : ObjRecord)
    (childName : String) : List HReq × Option ObjRecord × NamesT × Bool :=
  let g := HReq.get json.links
  match server g with
  | none => ([g], none, tbl, false)
  | some r =>
    match r.objects with
    | none => ([g], some r, tbl, false)
    | some l =>
      let ctfound := l.foldl (fun acc c => if c.name = childName then c.ctype else acc) ""
      if ctfound = "" then ([g], some r, tbl, true)
      else
        let p := HReq.put r.links
        match server p with
        | some r2 => ([g, p], some r2, tbl, true)
        | none => ([g, p], some r, tbl, true)

/-- Concrete record used by the delete protocol theorems. -/
def recH2 : ObjRecord := ⟨"H2", "id2", "u/host/id2", none⟩

/-- Server for the first delete: the DELETE succeeds. -/
def delServer1 : Server := fun q =>
  if q = HReq.del "u/host/id2" then some recH2 else none

/-- Server for the repeated delete: the record is gone, so every
response is empty. -/
def delServer2 : Server := fun _ => none

/-- Concrete one-child object graph for the child-first witnesses. -/
def treeG0 : ObjTree := ObjTree.mk "G0" "0" "NetworkGroup" []

/-- Concrete parent record referencing treeG0 as a nested child. -/
def treeG1 : ObjTree := ObjTree.mk "G1" "1" "NetworkGroup" [treeG0]

/-- Concrete host record used by the create and hydrate theorems. -/
def recH1 : ObjRecord := ⟨"H1", "7", "b/hosts/7", none⟩

/-- Server that answers the GET of the existing host H1 by id 7. -/
def srvH1 : Server := fun q =>
  if q = HReq.get "b/hosts/7" then some recH1 else none

/-- Server that answers the creating POST for host H1. -/
def srvCreate : Server := fun q =>
  if q = HReq.post "b/hosts" "H1" then some recH1 else none

/-- Record returned by the rename PUT: same identifier, new name. -/
def recH3 : ObjRecord := ⟨"H3", "id2", "u/host/id2", none⟩

/-- Server that answers the rename PUT of H2 with the H3 record. -/
def srvRen : Server := fun q =>
  if q = HReq.put "u/host/id2" then some recH3 else none

/-- Concrete group record holding one child descriptor, for the
remove_child theorems. -/
def recG1rec : ObjRecord := ⟨"G1", "g1", "u/g1", some [⟨"H1", "7", "Host"⟩]⟩

/-- Server for remove_child: the refresh GET returns the group record
and the PUT of the filtered record succeeds. -/
def srvRC : Server := fun q =>
  if q = HReq.get "u/g1" then some recG1rec
  else if q = HReq.put "u/g1" then some ⟨"G1", "g1", "u/g1", some []⟩
  else none

/-! ## Ordered dictionary lemmas -/

theorem odKeys_nil : odKeys [] = [] := rfl

theorem odKeys_cons (k v : String) (m : NamesT) :
    odKeys ((k, v) :: m) = k :: odKeys m := rfl

theorem odKeys_append (m d : NamesT) : odKeys (m ++ d) = odKeys m ++ odKeys d :=
  List.map_append _ _ _

theorem odLookup_eq_none_iff :
    ∀ (m : NamesT) (n : String), odLookup m n = none ↔ n ∉ odKeys m
  | [], n => by simp [odLookup, odKeys]
  | (k, v) :: rest, n => by
    rw [odLookup, odKeys_cons]
    by_cases h : k = n
    · subst h
      simp
    · rw [if_neg h, odLookup_eq_none_iff rest n, List.mem_cons]
      constructor
      · intro hn hc
        cases hc with
        | inl e => exact h e.symm
        | inr hm => exact hn hm
      · intro hn hm
        exact hn (Or.inr hm)

theorem mem_odKeys_of_lookup_some {m : NamesT} {n v : String}
    (h : odLookup m n = some v) : n ∈ odKeys m := by
  by_contra hn
  rw [← odLookup_eq_none_iff] at hn
  rw [h] at hn
  exact Option.noConfusion hn

theorem odLookup_isSome_iff (m : NamesT) (n : String) :
    (odLookup m n).isSome = true ↔ n ∈ odKeys m := by
  constructor
  · intro h
    obtain ⟨v, hv⟩ := Option.isSome_iff_exists.mp h
    exact mem_odKeys_of_lookup_some hv
  · intro h
    cases hl : odLookup m n with
    | none => exact absurd ((odLookup_eq_none_iff m n).mp hl) (by simp [h])
    | some v => rfl

theorem odLookup_append_of_mem :
    ∀ (m d : NamesT) (n : String), n ∈ odKeys m →
      odLookup (m ++ d) n = odLookup m n
  | [], _, n, h => by simp [odKeys] at h
  | (k, v) :: rest, d, n, h => by
    rw [List.cons_append, odLookup, odLookup]
    by_cases hk : k = n
    · rw [if_pos hk, if_pos hk]
    · rw [if_neg hk, if_neg hk]
      rw [odKeys_cons, List.mem_cons] at h
      cases h with
      | inl e => exact absurd e.symm hk
      | inr hm => exact odLookup_append_of_mem rest d n hm

theorem odLookup_append_some {m : NamesT} (d : NamesT) {n v : String}
    (h : odLookup m n = some v) : odLookup (m ++ d) n = some v := by
  rw [odLookup_append_of_mem m d n (mem_odKeys_of_lookup_some h)]
  exact h

theorem idxOf_append_of_mem :
    ∀ (l l2 : List String) (n : String), n ∈ l →
      idxOf (l ++ l2) n = idxOf l n
  | [], _, n, h => absurd h (List.not_mem_nil n)
  | k :: ks, l2, n, h => by
    rw [List.cons_append, idxOf, idxOf]
    by_cases hk : k = n
    · rw [if_pos hk, if_pos hk]
    · rw [if_neg hk, if_neg hk]
      cases List.mem_cons.mp h with
      | inl e => exact absurd e.symm hk
      | inr hm => rw [idxOf_append_of_mem ks l2 n hm]

theorem idxOf_lt_length_of_mem :
    ∀ (l : List String) (n : String), n ∈ l → idxOf l n < l.length
  | [], n, h => absurd h (List.not_mem_nil n)
  | k :: ks, n, h => by
    rw [idxOf, List.length_cons]
    by_cases hk : k = n
    · rw [if_pos hk]
      exact Nat.succ_pos _
    · rw [if_neg hk]
      have hm : n ∈ ks := by
        cases List.mem_cons.mp h with
        | inl e => exact absurd e.symm hk
        | inr hm => exact hm
      exact Nat.succ_lt_succ (idxOf_lt_length_of_mem ks n hm)

theorem idxOf_append_self :
    ∀ (l : List String) (n : String), n ∉ l → idxOf (l ++ [n]) n = l.length
  | [], n, _ => by simp [idxOf]
  | k :: ks, n, h => by
    have hk : k ≠ n := fun e => h (e ▸ List.mem_cons_self k ks)
    have hm : n ∉ ks := fun hm => h (List.mem_cons_of_mem k hm)
    rw [List.cons_append, idxOf, if_neg hk, idxOf_append_self ks n hm,
      List.length_cons]

theorem nodup_snoc (l : List String) (a : String) (hl : l.Nodup) (ha : a ∉ l) :
    (l ++ [a]).Nodup := by
  rw [List.nodup_append]
  exact ⟨hl, List.nodup_singleton a, by
    intro x hx hxa
    rw [List.mem_singleton] at hxa
    exact ha (hxa ▸ hx)⟩

theorem odLookup_odSet :
    ∀ (m : NamesT) (k v n : String),
      odLookup (odSet m k v) n = if k = n then some v else odLookup m n
  | [], k, v, n => by
    simp [odSet, odLookup]
  | (k0, v0) :: rest, k, v, n => by
    by_cases h0 : k0 = k
    · by_cases hn : k = n
      · simp [odSet, odLookup, h0, hn]
      · have hn0 : ¬k0 = n := fun e => hn (h0.symm.trans e)
        simp [odSet, odLookup, h0, hn, hn0]
    · by_cases hn : k0 = n
      · have hkn : ¬k = n := fun e => h0 (hn.trans e.symm)
        have hnk : ¬n = k := fun e => hkn e.symm
        simp [odSet, odLookup, h0, hn, hkn, hnk]
      · simp [odSet, odLookup, h0, hn, odLookup_odSet rest k v n]

theorem mem_odKeys_odSet :
    ∀ (m : NamesT) (k v n : String),
      n ∈ odKeys (odSet m k v) ↔ n ∈ odKeys m ∨ n = k
  | [], k, v, n => by
    simp [odSet, odKeys_cons, odKeys_nil]
  | (k0, v0) :: rest, k, v, n => by
    by_cases h0 : k0 = k
    · rw [odSet, if_pos h0]
      subst h0
      simp only [odKeys_cons, List.mem_cons]
      tauto
    · rw [odSet, if_neg h0]
      simp only [odKeys_cons, List.mem_cons, mem_odKeys_odSet rest k v n]
      tauto

theorem not_mem_odKeys_odPop :
    ∀ (m : NamesT) (k : String), k ∉ odKeys (odPop m k)
  | [], k => by simp [odPop, odKeys]
  | (k0, v0) :: rest, k => by
    rw [odPop]
    by_cases h0 : k0 = k
    · rw [if_pos h0]
      exact not_mem_odKeys_odPop rest k
    · rw [if_neg h0, odKeys_cons]
      intro h
      cases List.mem_cons.mp h with
      | inl e => exact h0 e.symm
      | inr hm => exact not_mem_odKeys_odPop rest k hm

theorem mem_odKeys_of_odPop :
    ∀ (m : NamesT) (k n : String), n ∈ odKeys (odPop m k) → n ∈ odKeys m
  | [], _, n, h => by simp [odPop, odKeys] at h
  | (k0, v0) :: rest, k, n, h => by
    rw [odPop] at h
    by_cases h0 : k0 = k
    · rw [if_pos h0] at h
      exact List.mem_cons_of_mem _ (mem_odKeys_of_odPop rest k n h)
    · rw [if_neg h0, odKeys_cons] at h
      rw [odKeys_cons]
      cases List.mem_cons.mp h with
      | inl e => exact e ▸ List.mem_cons_self _ _
      | inr hm => exact List.mem_cons_of_mem _ (mem_odKeys_of_odPop rest k n hm)

/-! ## Rate limiter theorems (claim C3) -/

theorem rl_no_sleep :
    ∀ (ts : List Int) (k : Nat) (t : Int), k + ts.length ≤ 119 →
      (rlRun ⟨k, t⟩ ts).2 = List.replicate ts.length 0
  | [], _, _, _ => by simp [rlRun]
  | t1 :: ts, k, t, h => by
    rw [List.length_cons] at h
    rw [rlRun, List.length_cons, List.replicate_succ]
    by_cases h1 : k + 1 = 1
    · have hs : rlStep ⟨k, t⟩ t1 = (⟨1, t1⟩, 0) := by
        simp [rlStep, h1]
      rw [hs]
      have := rl_no_sleep ts 1 t1 (by omega)
      simpa using this
    · have h2 : k + 1 < 120 := by omega
      have hs : rlStep ⟨k, t⟩ t1 = (⟨k + 1, t⟩, 0) := by
        simp [rlStep, h1, h2]
      rw [hs]
      have := rl_no_sleep ts (k + 1) t (by omega)
      simpa using this

set_option maxRecDepth 10000 in
/-- C3 counterexample: the claim says the first 120 rapid requests
all proceed without sleeping, but issuing 120 requests at the same
clock value makes the 120th request sleep for 61 seconds. -/
theorem c3_counterexample :
    (rlRun ⟨0, 0⟩ (List.replicate 120 (0 : Int))).2.getLast? = some 61 ∧
      (61 : Int) ≠ 0 := by
  exact ⟨by decide, by decide⟩

/-- C3 amended: from a fresh client, the first 119 requests proceed
without sleeping, and the 120th request within the same 60-second
window sleeps for the remaining window time plus a one-second margin,
after which the counter resets to 1 and the window restarts at the
post-sleep clock value. -/
theorem c3_rate_limiter_amended :
    (∀ (t0 : Int) (ts : List Int), ts.length ≤ 119 →
      (rlRun ⟨0, t0⟩ ts).2 = List.replicate ts.length 0) ∧
    (∀ (s : RLState) (now : Int), s.req_count = 119 → now - s.req_time ≤ 60 →
      rlStep s now =
        (⟨1, now + (60 - (now - s.req_time) + 1)⟩, 60 - (now - s.req_time) + 1) ∧
      0 < 60 - (now - s.req_time) + 1) := by
  constructor
  · intro t0 ts h
    exact rl_no_sleep ts 0 t0 (by omega)
  · intro s now h119 hd
    constructor
    · simp [rlStep, h119, hd]
    · omega

/-- C3 witness: three rapid requests sleep 0 seconds each, and a
120th request issued 10 seconds into the window sleeps 51 seconds. -/
theorem c3_witness :
    (([(0 : Int), 1, 2] : List Int).length ≤ 119 ∧
      (rlRun ⟨0, 5⟩ [(0 : Int), 1, 2]).2 = List.replicate 3 0) ∧
    ((⟨119, 0⟩ : RLState).req_count = 119 ∧ (10 : Int) - (0 : Int) ≤ 60 ∧
      rlStep ⟨119, 0⟩ 10 = (⟨1, 10 + (60 - ((10 : Int) - 0) + 1)⟩, 60 - ((10 : Int) - 0) + 1) ∧
      0 < 60 - ((10 : Int) - 0) + 1) :=
  ⟨⟨by decide, c3_rate_limiter_amended.1 5 [0, 1, 2] (by decide)⟩,
   ⟨rfl, by decide,
    (c3_rate_limiter_amended.2 ⟨119, 0⟩ 10 rfl (by decide)).1,
    (c3_rate_limiter_amended.2 ⟨119, 0⟩ 10 rfl (by decide)).2⟩⟩

/-! ## FPResourceTable.build theorems (claim C4) -/

theorem lastMatch_foldl_acc (n : String) :
    ∀ (l : List (String × String)) (acc : Option String),
      l.foldl (fun a it => if it.1 = n then some it.2 else a) acc =
        match l.foldl (fun a it => if it.1 = n then some it.2 else a) none with
        | some v => some v
        | none => acc
  | [], acc => by simp
  | it :: rest, acc => by
    rw [List.foldl_cons, List.foldl_cons]
    rw [lastMatch_foldl_acc n rest (if it.1 = n then some it.2 else acc)]
    rw [lastMatch_foldl_acc n rest (if it.1 = n then some it.2 else none)]
    cases h : rest.foldl (fun a it => if it.1 = n then some it.2 else a) none with
    | some v => rfl
    | none =>
      by_cases hit : it.1 = n
      · rw [if_pos hit, if_pos hit]
      · rw [if_neg hit, if_neg hit]

/-- C4 counterexample: the claim says the first write wins in
FPResourceTable.build, but with two drained items sharing a name the
cache afterwards maps the name to the identifier of the second. -/
theorem c4_counterexample :
    odLookup (rtBuild [] [("n", "1"), ("n", "2")]) "n" = some "2" ∧
      ("2" : String) ≠ "1" := by
  exact ⟨by decide, by decide⟩

/-- C4 amended: FPResourceTable.build writes name to id for every
drained item with a plain dictionary assignment, so on duplicate
names the last item wins (the entry keeps the position of its first
occurrence); names not written keep their prior value. -/
theorem c4_last_write_wins :
    ∀ (items : List (String × String)) (m : NamesT) (n : String),
      odLookup (rtBuild m items) n =
        match lastMatch items n with
        | some v => some v
        | none => odLookup m n
  | [], m, n => by simp [rtBuild, lastMatch]
  | it :: rest, m, n => by
    have hcons : lastMatch (it :: rest) n =
        match lastMatch rest n with
        | some v => some v
        | none => if it.1 = n then some it.2 else none := by
      rw [lastMatch, List.foldl_cons]
      exact lastMatch_foldl_acc n rest _
    rw [hcons]
    rw [show rtBuild m (it :: rest) = rtBuild (odSet m it.1 it.2) rest from rfl]
    rw [c4_last_write_wins rest (odSet m it.1 it.2) n]
    cases h : lastMatch rest n with
    | some v => rfl
    | none =>
      rw [odLookup_odSet]
      by_cases hit : it.1 = n
      · simp [hit]
      · simp [hit]

/-! ## Pagination theorems (claim C7) -/

theorem containsAux_append (needle : List Char) :
    ∀ (xs ys : List Char), containsAux needle ys = true →
      containsAux needle (xs ++ ys) = true
  | [], _, h => h
  | x :: xs, ys, h => by
    rw [List.cons_append, containsAux]
    rw [containsAux_append needle xs ys h]
    exact Bool.or_true _

theorem strContains_append_right (a b n : String)
    (h : strContains b n = true) : strContains (a ++ b) n = true := by
  rw [strContains, String.data_append]
  exact containsAux_append n.data a.data b.data h

theorem nextUrlFix_contains (u : String) :
    strContains (nextUrlFix u) "expanded=true" = true := by
  rw [nextUrlFix]
  by_cases h : strContains u "expanded=true" = true
  · rw [if_pos h]
    exact h
  · rw [if_neg h]
    exact strContains_append_right u "&expanded=true" "expanded=true" (by decide)

theorem buildTrace_all_expanded (server : String → Option Paging) :
    ∀ (fuel : Nat) (u : String), strContains u "expanded=true" = true →
      ∀ x ∈ buildTrace server fuel (some u), strContains x "expanded=true" = true
  | 0, u, _, x, hx => by simp [buildTrace] at hx
  | Nat.succ n, u, hu, x, hx => by
    rw [buildTrace] at hx
    split at hx
    · exact absurd hx (List.not_mem_nil x)
    · rcases List.mem_cons.mp hx with e | hm
      · exact e ▸ hu
      · split at hm
        · exact absurd hm (List.not_mem_nil x)
        · split at hm
          · exact absurd hm (List.not_mem_nil x)
          · split at hm
            · exact buildTrace_all_expanded server n _ (nextUrlFix_contains _) x hm
            · exact absurd hm (List.not_mem_nil x)
            · exact absurd hm (List.not_mem_nil x)

/-- C7 counterexample: against a server whose next link drops the
expanded flag, the raw listing iteration of
FMC.get_all_resource_instances requests the continuation URL exactly
as returned, without the flag. -/
theorem c7_counterexample :
    iterTrace pgServer 3 (some "u/hosts?expanded=true") =
      ["u/hosts?expanded=true", "u/hosts?o=25"] ∧
    strContains "u/hosts?o=25" "expanded=true" = false := by
  exact ⟨by decide, by decide⟩

/-- C7 amended: the two table build loops re-append the expanded flag,
so every URL they request carries it; the raw listing iteration of
get_all_resource_instances instead continues with the next URL exactly
as the server returned it. -/
theorem c7_expanded_flag_amended :
    (∀ (server : String → Option Paging) (fuel : Nat) (pre ty : String),
      ∀ u ∈ buildTrace server fuel (some (pre ++ ty ++ "?expanded=true")),
        strContains u "expanded=true" = true) ∧
    (∀ (server : String → Option Paging) (fuel : Nat) (u : String)
        (pg : Paging) (nu : String) (rest : List String),
      server u = some pg → pg.count ≠ 0 → pg.next = some (nu :: rest) → u ≠ "" →
      iterTrace server (fuel + 1) (some u) = u :: iterTrace server fuel (some nu)) := by
  constructor
  · intro server fuel pre ty u hu
    refine buildTrace_all_expanded server fuel _ ?_ u hu
    exact strContains_append_right (pre ++ ty) "?expanded=true" "expanded=true" (by decide)
  · intro server fuel u pg nu rest hs hc hn he
    rw [iterTrace, if_neg he]
    simp only [hs]
    rw [if_neg hc]
    simp only [hn]

/-- C7 witness: on the concrete server, the second build URL carries
the re-appended flag, and the iteration continues with the raw next
URL. -/
theorem c7_witness :
    ("u/hosts?o=25&expanded=true" ∈
        buildTrace pgServer 3 (some ("u/" ++ "hosts" ++ "?expanded=true")) ∧
      strContains "u/hosts?o=25&expanded=true" "expanded=true" = true) ∧
    (pgServer "u/hosts?expanded=true" = some ⟨1, some ["u/hosts?o=25"]⟩ ∧
      iterTrace pgServer 3 (some "u/hosts?expanded=true") =
        "u/hosts?expanded=true" :: iterTrace pgServer 2 (some "u/hosts?o=25")) :=
  ⟨⟨by decide,
    c7_expanded_flag_amended.1 pgServer 3 "u/" "hosts" _ (by decide)⟩,
   ⟨by decide,
    c7_expanded_flag_amended.2 pgServer 2 "u/hosts?expanded=true"
      ⟨1, some ["u/hosts?o=25"]⟩ "u/hosts?o=25" [] (by decide) (by decide)
      (by decide) (by decide)⟩⟩

/-! ## Child-first build theorems (claims C1 and C2) -/

theorem self_mem_matchReach (T : String) (t : ObjTree) : t ∈ matchReach T t := by
  cases t with
  | mk n i ty ch =>
    rw [matchReach]
    exact List.mem_cons_self _ _

theorem mem_matchReachL (T : String) :
    ∀ (l : List ObjTree) (q : ObjTree),
      q ∈ matchReachL T l ↔
        ∃ c ∈ l, T = lowerPlural c.ctype ∧ q ∈ matchReach T c
  | [], q => by simp [matchReachL]
  | c :: cs, q => by
    rw [matchReachL, List.mem_append]
    by_cases h : T = lowerPlural c.ctype
    · rw [if_pos h]
      simp only [List.mem_cons, mem_matchReachL T cs q]
      constructor
      · rintro (hq | ⟨c2, hc2, hm, hq⟩)
        · exact ⟨c, Or.inl rfl, h, hq⟩
        · exact ⟨c2, Or.inr hc2, hm, hq⟩
      · rintro ⟨c2, hc2 | hc2, hm, hq⟩
        · exact Or.inl (hc2 ▸ hq)
        · exact Or.inr ⟨c2, hc2, hm, hq⟩
    · rw [if_neg h]
      simp only [List.not_mem_nil, false_or, List.mem_cons, mem_matchReachL T cs q]
      constructor
      · rintro ⟨c2, hc2, hm, hq⟩
        exact ⟨c2, Or.inr hc2, hm, hq⟩
      · rintro ⟨c2, hc2 | hc2, hm, hq⟩
        · exact absurd (hc2 ▸ hm) h
        · exact ⟨c2, hc2, hm, hq⟩

mutual

theorem matchReach_closed (T : String) (t : ObjTree) :
    ∀ p ∈ matchReach T t, ∀ c ∈ p.children, T = lowerPlural c.ctype →
      c ∈ matchReach T t := by
  cases t with
  | mk n i ty ch =>
    intro p hp c hc hm
    rw [matchReach] at hp ⊢
    rcases List.mem_cons.mp hp with e | hp2
    · subst e
      refine List.mem_cons_of_mem _ ((mem_matchReachL T ch c).mpr ?_)
      exact ⟨c, hc, hm, self_mem_matchReach T c⟩
    · exact List.mem_cons_of_mem _ (matchReachL_closed T ch p hp2 c hc hm)

theorem matchReachL_closed (T : String) (l : List ObjTree) :
    ∀ p ∈ matchReachL T l, ∀ c ∈ p.children, T = lowerPlural c.ctype →
      c ∈ matchReachL T l := by
  cases l with
  | nil =>
    intro p hp
    exact absurd hp (List.not_mem_nil p)
  | cons c0 cs =>
    intro p hp c hc hm
    rw [matchReachL, List.mem_append] at hp ⊢
    rcases hp with hp1 | hp2
    · by_cases h0 : T = lowerPlural c0.ctype
      · rw [if_pos h0] at hp1 ⊢
        exact Or.inl (matchReach_closed T c0 p hp1 c hc hm)
      · rw [if_neg h0] at hp1
        exact absurd hp1 (List.not_mem_nil p)
    · exact Or.inr (matchReachL_closed T cs p hp2 c hc hm)

end

theorem mem_mchildNames (T : String) (t : ObjTree) (cn : String) :
    cn ∈ mchildNames T t ↔
      ∃ c ∈ t.children, T = lowerPlural c.ctype ∧ c.name = cn := by
  simp only [mchildNames, List.mem_map, List.mem_filter, decide_eq_true_eq]
  tauto

mutual

theorem acf_prefix (T : String) (t : ObjTree) (ns : NamesT) :
    ∃ d, addChildFirst T t ns = ns ++ d := by
  cases t with
  | mk n i ty ch =>
    obtain ⟨d1, h1⟩ := acfl_prefix T ch ns
    rw [addChildFirst]
    by_cases h : odLookup (addChildrenFirst T ch ns) n = none
    · rw [if_pos h, h1]
      exact ⟨d1 ++ [(n, i)], by rw [List.append_assoc]⟩
    · rw [if_neg h, h1]
      exact ⟨d1, rfl⟩

theorem acfl_prefix (T : String) (l : List ObjTree) (ns : NamesT) :
    ∃ d, addChildrenFirst T l ns = ns ++ d := by
  cases l with
  | nil => exact ⟨[], by rw [addChildrenFirst, List.append_nil]⟩
  | cons c cs =>
    rw [addChildrenFirst]
    by_cases h : T = lowerPlural c.ctype
    · rw [if_pos h]
      obtain ⟨d1, h1⟩ := acf_prefix T c ns
      obtain ⟨d2, h2⟩ := acfl_prefix T cs (addChildFirst T c ns)
      rw [h2, h1, List.append_assoc]
      exact ⟨d1 ++ d2, rfl⟩
    · rw [if_neg h]
      exact acfl_prefix T cs ns

end

theorem buildOT_cons (T : String) (r : ObjTree) (rs : List ObjTree) (ns : NamesT) :
    buildOT T (r :: rs) ns = buildOT T rs (addChildFirst T r ns) := rfl

theorem buildOT_prefix (T : String) :
    ∀ (listing : List ObjTree) (ns : NamesT), ∃ d, buildOT T listing ns = ns ++ d
  | [], ns => ⟨[], by simp [buildOT]⟩
  | r :: rs, ns => by
    obtain ⟨d1, h1⟩ := acf_prefix T r ns
    obtain ⟨d2, h2⟩ := buildOT_prefix T rs (addChildFirst T r ns)
    exact ⟨d1 ++ d2, by rw [buildOT_cons, h2, h1, List.append_assoc]⟩

mutual

theorem acf_basic (T : String) (t : ObjTree) (ns : NamesT)
    (hnd : (odKeys ns).Nodup) :
    (odKeys (addChildFirst T t ns)).Nodup ∧
    ∀ q ∈ matchReach T t, q.name ∈ odKeys (addChildFirst T t ns) := by
  cases t with
  | mk n i ty ch =>
    obtain ⟨hnd1, hcm1⟩ := acfl_basic T ch ns hnd
    have heq : addChildFirst T (ObjTree.mk n i ty ch) ns =
        if odLookup (addChildrenFirst T ch ns) n = none then
          addChildrenFirst T ch ns ++ [(n, i)]
        else addChildrenFirst T ch ns := by
      rw [addChildFirst]
    rw [heq]
    by_cases h : odLookup (addChildrenFirst T ch ns) n = none
    · rw [if_pos h]
      have hn_notmem : n ∉ odKeys (addChildrenFirst T ch ns) :=
        (odLookup_eq_none_iff _ _).mp h
      constructor
      · rw [odKeys_append, show odKeys [(n, i)] = [n] from rfl]
        exact nodup_snoc _ _ hnd1 hn_notmem
      · intro q hq
        rw [matchReach] at hq
        rw [odKeys_append, show odKeys [(n, i)] = [n] from rfl]
        rcases List.mem_cons.mp hq with e | hq2
        · rw [e]
          exact List.mem_append_right _ (List.mem_cons_self n [])
        · rw [mem_matchReachL] at hq2
          obtain ⟨c, hc, hm2, hq3⟩ := hq2
          exact List.mem_append_left _ (hcm1 c hc hm2 q hq3)
    · rw [if_neg h]
      refine ⟨hnd1, ?_⟩
      intro q hq
      rw [matchReach] at hq
      rcases List.mem_cons.mp hq with e | hq2
      · rw [e]
        have hsome : (odLookup (addChildrenFirst T ch ns) n).isSome = true := by
          cases ho : odLookup (addChildrenFirst T ch ns) n with
          | none => exact absurd ho h
          | some v => rfl
        exact (odLookup_isSome_iff _ _).mp hsome
      · rw [mem_matchReachL] at hq2
        obtain ⟨c, hc, hm2, hq3⟩ := hq2
        exact hcm1 c hc hm2 q hq3

theorem acfl_basic (T : String) (l : List ObjTree) (ns : NamesT)
    (hnd : (odKeys ns).Nodup) :
    (odKeys (addChildrenFirst T l ns)).Nodup ∧
    ∀ c ∈ l, T = lowerPlural c.ctype →
      ∀ q ∈ matchReach T c, q.name ∈ odKeys (addChildrenFirst T l ns) := by
  cases l with
  | nil =>
    rw [addChildrenFirst]
    refine ⟨hnd, ?_⟩
    intro c hc
    exact absurd hc (List.not_mem_nil c)
  | cons c cs =>
    rw [addChildrenFirst]
    by_cases hm : T = lowerPlural c.ctype
    · rw [if_pos hm]
      obtain ⟨hnd1, hcm1⟩ := acf_basic T c ns hnd
      obtain ⟨hnd2, hcm2⟩ := acfl_basic T cs (addChildFirst T c ns) hnd1
      refine ⟨hnd2, ?_⟩
      intro x hx hxm q hq
      rcases List.mem_cons.mp hx with e | hx2
      · obtain ⟨d2, hd2⟩ := acfl_prefix T cs (addChildFirst T c ns)
        rw [hd2, odKeys_append]
        exact List.mem_append_left _ (hcm1 q (e ▸ hq))
      · exact hcm2 x hx2 hxm q hq
    · rw [if_neg hm]
      obtain ⟨hnd2, hcm2⟩ := acfl_basic T cs ns hnd
      refine ⟨hnd2, ?_⟩
      intro x hx hxm q hq
      rcases List.mem_cons.mp hx with e | hx2
      · exact absurd (e ▸ hxm) hm
      · exact hcm2 x hx2 hxm q hq

end

mutual

theorem acf_cf (T : String) (nodes : List ObjTree) (hcl : closedNodes T nodes)
    (hfn : fnNames T nodes) (t : ObjTree) (ht : t ∈ nodes) (ns : NamesT)
    (hnd : (odKeys ns).Nodup) (hcf : CF T nodes ns) :
    CF T nodes (addChildFirst T t ns) := by
  cases t with
  | mk n i ty ch =>
    have hlch : ∀ c ∈ ch, T = lowerPlural c.ctype → c ∈ nodes :=
      fun c hc hm => hcl _ ht c hc hm
    obtain ⟨hnd1, hcm1⟩ := acfl_basic T ch ns hnd
    have hcf1 : CF T nodes (addChildrenFirst T ch ns) :=
      acfl_cf T nodes hcl hfn ch hlch ns hnd hcf
    have heq : addChildFirst T (ObjTree.mk n i ty ch) ns =
        if odLookup (addChildrenFirst T ch ns) n = none then
          addChildrenFirst T ch ns ++ [(n, i)]
        else addChildrenFirst T ch ns := by
      rw [addChildFirst]
    rw [heq]
    by_cases h : odLookup (addChildrenFirst T ch ns) n = none
    · rw [if_pos h]
      have hn_notmem : n ∉ odKeys (addChildrenFirst T ch ns) :=
        (odLookup_eq_none_iff _ _).mp h
      intro p hp cn hcn hpk
      rw [odKeys_append, show odKeys [(n, i)] = [n] from rfl] at hpk ⊢
      by_cases hpk1 : p.name ∈ odKeys (addChildrenFirst T ch ns)
      · obtain ⟨hcmem, hidx⟩ := hcf1 p hp cn hcn hpk1
        refine ⟨List.mem_append_left _ hcmem, ?_⟩
        rw [idxOf_append_of_mem _ _ _ hcmem, idxOf_append_of_mem _ _ _ hpk1]
        exact hidx
      · have hpn : p.name = n := by
          rcases List.mem_append.mp hpk with h1 | h2
          · exact absurd h1 hpk1
          · exact List.mem_singleton.mp h2
        have hmc : mchildNames T p = mchildNames T (ObjTree.mk n i ty ch) :=
          hfn p hp (ObjTree.mk n i ty ch) ht hpn
        rw [hmc, mem_mchildNames] at hcn
        obtain ⟨c, hc, hm2, hname⟩ := hcn
        have hq : cn ∈ odKeys (addChildrenFirst T ch ns) := by
          have h2 := hcm1 c hc hm2 c (self_mem_matchReach T c)
          rwa [hname] at h2
        refine ⟨List.mem_append_left _ hq, ?_⟩
        rw [idxOf_append_of_mem _ _ _ hq, hpn, idxOf_append_self _ _ hn_notmem]
        exact idxOf_lt_length_of_mem _ _ hq
    · rw [if_neg h]
      exact hcf1

theorem acfl_cf (T : String) (nodes : List ObjTree) (hcl : closedNodes T nodes)
    (hfn : fnNames T nodes) (l : List ObjTree)
    (hl : ∀ c ∈ l, T = lowerPlural c.ctype → c ∈ nodes) (ns : NamesT)
    (hnd : (odKeys ns).Nodup) (hcf : CF T nodes ns) :
    CF T nodes (addChildrenFirst T l ns) := by
  cases l with
  | nil =>
    rw [addChildrenFirst]
    exact hcf
  | cons c cs =>
    rw [addChildrenFirst]
    by_cases hm : T = lowerPlural c.ctype
    · rw [if_pos hm]
      have hc : c ∈ nodes := hl c (List.mem_cons_self c cs) hm
      exact acfl_cf T nodes hcl hfn cs (fun x hx => hl x (List.mem_cons_of_mem c hx))
        (addChildFirst T c ns) (acf_basic T c ns hnd).1
        (acf_cf T nodes hcl hfn c hc ns hnd hcf)
    · rw [if_neg hm]
      exact acfl_cf T nodes hcl hfn cs (fun x hx => hl x (List.mem_cons_of_mem c hx))
        ns hnd hcf

end

theorem buildOT_basic (T : String) :
    ∀ (listing : List ObjTree) (ns : NamesT), (odKeys ns).Nodup →
      (odKeys (buildOT T listing ns)).Nodup ∧
      (∀ r ∈ listing, ∀ q ∈ matchReach T r, q.name ∈ odKeys (buildOT T listing ns))
  | [], ns, hnd => ⟨hnd, by simp⟩
  | r :: rs, ns, hnd => by
    obtain ⟨hnd1, hcm1⟩ := acf_basic T r ns hnd
    obtain ⟨hnd2, hcm2⟩ := buildOT_basic T rs (addChildFirst T r ns) hnd1
    rw [buildOT_cons]
    refine ⟨hnd2, ?_⟩
    intro x hx q hq
    rcases List.mem_cons.mp hx with e | hx2
    · obtain ⟨d2, hd2⟩ := buildOT_prefix T rs (addChildFirst T r ns)
      rw [hd2, odKeys_append]
      exact List.mem_append_left _ (hcm1 q (e ▸ hq))
    · exact hcm2 x hx2 q hq

theorem buildOT_cf (T : String) (nodes : List ObjTree) (hcl : closedNodes T nodes)
    (hfn : fnNames T nodes) :
    ∀ (listing : List ObjTree), (∀ r ∈ listing, r ∈ nodes) →
      ∀ (ns : NamesT), (odKeys ns).Nodup → CF T nodes ns →
      CF T nodes (buildOT T listing ns)
  | [], _, _, _, hcf => hcf
  | r :: rs, hr, ns, hnd, hcf => by
    rw [buildOT_cons]
    exact buildOT_cf T nodes hcl hfn rs (fun x hx => hr x (List.mem_cons_of_mem r hx))
      (addChildFirst T r ns) (acf_basic T r ns hnd).1
      (acf_cf T nodes hcl hfn r (hr r (List.mem_cons_self r rs)) ns hnd hcf)

/-- C1: for every object graph whose reachable records are named
functionally (records sharing a name present the same matching-child
names, the server-side name uniqueness), after FPObjectTable.build
over the listing every processed parent and every nested child of
matching type are both cached, and the entry index of the child
strictly precedes the entry index of the parent that references it. -/
theorem c1_child_first_order (T : String) (F : List ObjTree)
    (hfn : fnNames T (allReach T F)) :
    ∀ r ∈ F, ∀ p ∈ matchReach T r, ∀ c ∈ p.children, T = lowerPlural c.ctype →
      c.name ∈ odKeys (buildOT T F []) ∧ p.name ∈ odKeys (buildOT T F []) ∧
      idxOf (odKeys (buildOT T F [])) c.name <
        idxOf (odKeys (buildOT T F [])) p.name := by
  have hcl : closedNodes T (allReach T F) := by
    intro p hp c hc hm
    rw [allReach, List.mem_flatMap] at hp ⊢
    obtain ⟨r, hr, hpr⟩ := hp
    exact ⟨r, hr, matchReach_closed T r p hpr c hc hm⟩
  have hroots : ∀ r ∈ F, r ∈ allReach T F := by
    intro r hr
    rw [allReach, List.mem_flatMap]
    exact ⟨r, hr, self_mem_matchReach T r⟩
  have hcf0 : CF T (allReach T F) [] := by
    intro p hp cn hcn hpk
    exact absurd hpk (List.not_mem_nil _)
  have hcf := buildOT_cf T (allReach T F) hcl hfn F hroots [] List.nodup_nil hcf0
  have hcm := (buildOT_basic T F [] List.nodup_nil).2
  intro r hr p hp c hc hm
  have hpnodes : p ∈ allReach T F := by
    rw [allReach, List.mem_flatMap]
    exact ⟨r, hr, hp⟩
  have hpname : p.name ∈ odKeys (buildOT T F []) := hcm r hr p hp
  have hcn : c.name ∈ mchildNames T p := by
    rw [mem_mchildNames]
    exact ⟨c, hc, hm, rfl⟩
  obtain ⟨hcmem, hidx⟩ := hcf p hpnodes c.name hcn hpname
  exact ⟨hcmem, hpname, hidx⟩

/-- C1 witness: on the two-level graph of treeG1 containing treeG0,
the networkgroups build caches the child before the parent. -/
theorem c1_witness :
    fnNames "networkgroups" (allReach "networkgroups" [treeG1]) ∧
    treeG1 ∈ [treeG1] ∧ treeG1 ∈ matchReach "networkgroups" treeG1 ∧
    treeG0 ∈ treeG1.children ∧ "networkgroups" = lowerPlural treeG0.ctype ∧
    ("G0" ∈ odKeys (buildOT "networkgroups" [treeG1] []) ∧
      "G1" ∈ odKeys (buildOT "networkgroups" [treeG1] []) ∧
      idxOf (odKeys (buildOT "networkgroups" [treeG1] [])) "G0" <
        idxOf (odKeys (buildOT "networkgroups" [treeG1] [])) "G1") := by
  have hM : matchReach "networkgroups" treeG1 = [treeG1, treeG0] := by
    simp [treeG1, treeG0, matchReach, matchReachL, ObjTree.ctype,
      show "networkgroups" = lowerPlural "NetworkGroup" from by decide]
  have hA : allReach "networkgroups" [treeG1] = [treeG1, treeG0] := by
    simp [allReach, hM]
  have hfn : fnNames "networkgroups" (allReach "networkgroups" [treeG1]) := by
    rw [hA]
    unfold fnNames
    decide
  refine ⟨hfn, List.mem_cons_self _ _, ?_, List.mem_cons_self _ _, by decide, ?_⟩
  · rw [hM]
    exact List.mem_cons_self _ _
  · exact c1_child_first_order "networkgroups" [treeG1] hfn treeG1
      (List.mem_cons_self _ _) treeG1 (by rw [hM]; exact List.mem_cons_self _ _)
      treeG0 (List.mem_cons_self _ _) (by decide)

mutual

theorem acf_noop (T : String) (t : ObjTree) (ns : NamesT)
    (h : ∀ q ∈ matchReach T t, q.name ∈ odKeys ns) :
    addChildFirst T t ns = ns := by
  cases t with
  | mk n i ty ch =>
    have h1 : addChildrenFirst T ch ns = ns := by
      refine acfl_noop T ch ns ?_
      intro c hc hm q hq
      refine h q ?_
      rw [matchReach]
      exact List.mem_cons_of_mem _ ((mem_matchReachL T ch q).mpr ⟨c, hc, hm, hq⟩)
    have hn : n ∈ odKeys ns := by
      have h2 := h (ObjTree.mk n i ty ch) (by
        rw [matchReach]
        exact List.mem_cons_self _ _)
      exact h2
    have hne : ¬odLookup ns n = none := by
      intro e
      exact (odLookup_eq_none_iff ns n).mp e hn
    rw [addChildFirst]
    simp only [h1]
    rw [if_neg hne]

theorem acfl_noop (T : String) (l : List ObjTree) (ns : NamesT)
    (h : ∀ c ∈ l, T = lowerPlural c.ctype →
      ∀ q ∈ matchReach T c, q.name ∈ odKeys ns) :
    addChildrenFirst T l ns = ns := by
  cases l with
  | nil => rw [addChildrenFirst]
  | cons c cs =>
    rw [addChildrenFirst]
    by_cases hm : T = lowerPlural c.ctype
    · rw [if_pos hm, acf_noop T c ns (h c (List.mem_cons_self c cs) hm)]
      exact acfl_noop T cs ns (fun x hx => h x (List.mem_cons_of_mem c hx))
    · rw [if_neg hm]
      exact acfl_noop T cs ns (fun x hx => h x (List.mem_cons_of_mem c hx))

end

theorem buildOT_noop (T : String) :
    ∀ (listing : List ObjTree) (ns : NamesT),
      (∀ r ∈ listing, ∀ q ∈ matchReach T r, q.name ∈ odKeys ns) →
      buildOT T listing ns = ns
  | [], _, _ => rfl
  | r :: rs, ns, h => by
    rw [buildOT_cons, acf_noop T r ns (h r (List.mem_cons_self r rs))]
    exact buildOT_noop T rs ns (fun x hx => h x (List.mem_cons_of_mem r hx))

/-- C2: building the same FPObjectTable twice over the same listing
leaves the cache unchanged after the first build, the cache holds
exactly one entry per name, and an entry already present is never
overwritten by any later occurrence (first seen wins). -/
theorem c2_idempotent_insertion (T : String) (F : List ObjTree) :
    buildOT T F (buildOT T F []) = buildOT T F [] ∧
    (odKeys (buildOT T F [])).Nodup ∧
    (∀ (ns : NamesT) (n v : String), odLookup ns n = some v →
      odLookup (buildOT T F ns) n = some v) := by
  refine ⟨?_, (buildOT_basic T F [] List.nodup_nil).1, ?_⟩
  · exact buildOT_noop T F (buildOT T F []) (buildOT_basic T F [] List.nodup_nil).2
  · intro ns n v h
    obtain ⟨d, hd⟩ := buildOT_prefix T F ns
    rw [hd]
    exact odLookup_append_some d h

/-- C2 witness: rebuilding over the one-parent listing is a no-op,
keys are unique, and a pre-existing entry for G1 keeps its original
identifier X rather than the listed identifier 1. -/
theorem c2_witness :
    buildOT "networkgroups" [treeG1] (buildOT "networkgroups" [treeG1] []) =
      buildOT "networkgroups" [treeG1] [] ∧
    (odKeys (buildOT "networkgroups" [treeG1] [])).Nodup ∧
    (odLookup [("G1", "X")] "G1" = some "X" ∧
      odLookup (buildOT "networkgroups" [treeG1] [("G1", "X")]) "G1" = some "X") :=
  ⟨(c2_idempotent_insertion "networkgroups" [treeG1]).1,
   (c2_idempotent_insertion "networkgroups" [treeG1]).2.1,
   by decide,
   (c2_idempotent_insertion "networkgroups" [treeG1]).2.2 [("G1", "X")] "G1" "X"
     (by decide)⟩

/-! ## FPObject lifecycle theorems (claims C5, C6, C8, C9, C10) -/

/-- C5: after a successful create the owning table holds the created
record name mapped to its identifier; after a successful delete that
entry is absent; after a successful rename (the server responding
with the new name and the unchanged identifier, as FMC does) the old
name is absent and the new name maps to the same identifier, the
identifier of the held record being unchanged. -/
theorem c5_table_consistency :
    (∀ (server : Server) (tbl : NamesT) (base : String) (data : ObjData)
        (r : ObjRecord),
      (fpCreate server tbl base data).2.1 = some r →
      odLookup (fpCreate server tbl base data).2.2 r.name = some r.oid) ∧
    (∀ (server : Server) (tbl tbl2 : NamesT) (json r : ObjRecord),
      server (HReq.del json.links) = some r →
      (fpDelete server tbl json).2 = some tbl2 →
      json.name ∉ odKeys tbl2) ∧
    (∀ (server : Server) (tbl tbl2 : NamesT) (json j2 r : ObjRecord)
        (newName : String),
      newName ≠ "" → server (HReq.put json.links) = some r →
      r.name = newName → r.oid = json.oid → json.name ≠ newName →
      (fpRename server tbl json newName).2 = some (tbl2, j2) →
      json.name ∉ odKeys tbl2 ∧ odLookup tbl2 newName = some json.oid ∧
        j2.oid = json.oid) := by
  refine ⟨?_, ?_, ?_⟩
  · intro server tbl base data r h
    simp only [fpCreate] at h ⊢
    cases hres : (reqJson server base (lowerPlural data.dtype)
        (odLookup tbl data.name) none (some data.name)).2 with
    | none =>
      simp only [hres] at h
      exact Option.noConfusion h
    | some r0 =>
      simp only [hres] at h ⊢
      obtain rfl : r0 = r := Option.some.inj h
      rw [odLookup_odSet]
      simp
  · intro server tbl tbl2 json r hsrv h
    simp only [fpDelete, hsrv] at h
    rw [odPopE] at h
    by_cases hm : (odLookup tbl json.name).isSome = true
    · rw [if_pos hm] at h
      obtain rfl : odPop tbl json.name = tbl2 := Option.some.inj h
      exact not_mem_odKeys_odPop tbl json.name
    · rw [if_neg hm] at h
      exact absurd h (by simp)
  · intro server tbl tbl2 json j2 r newName hne hsrv hrn hrid hnn h
    simp only [fpRename, if_neg hne, hsrv] at h
    rw [if_pos hrn] at h
    rw [odPopE] at h
    by_cases hm : (odLookup tbl json.name).isSome = true
    · rw [if_pos hm] at h
      simp only [Option.map_some] at h
      have h2 := Option.some.inj h
      have h3 : odSet (odPop tbl json.name) r.name r.oid = tbl2 :=
        congrArg Prod.fst h2
      have h4 : r = j2 := congrArg Prod.snd h2
      subst h3
      subst h4
      refine ⟨?_, ?_, hrid⟩
      · intro hmem
        rw [mem_odKeys_odSet] at hmem
        rcases hmem with h5 | h5
        · exact not_mem_odKeys_odPop tbl json.name h5
        · rw [hrn] at h5
          exact hnn h5
      · rw [odLookup_odSet, if_pos hrn, hrid]
    · rw [if_neg hm] at h
      exact absurd h (by simp)

/-- C5 witness: creating H1 caches H1 to 7; deleting H2 empties its
entry; renaming H2 to H3 keeps identifier id2 under the new name. -/
theorem c5_witness :
    ((fpCreate srvCreate [] "b/" ⟨"H1", "Host"⟩).2.1 = some recH1 ∧
      odLookup (fpCreate srvCreate [] "b/" ⟨"H1", "Host"⟩).2.2 "H1" = some "7") ∧
    (delServer1 (HReq.del recH2.links) = some recH2 ∧
      (fpDelete delServer1 [("H2", "id2")] recH2).2 = some [] ∧
      "H2" ∉ odKeys ([] : NamesT)) ∧
    (srvRen (HReq.put recH2.links) = some recH3 ∧
      (fpRename srvRen [("H2", "id2")] recH2 "H3").2 =
        some ([("H3", "id2")], recH3) ∧
      "H2" ∉ odKeys [("H3", "id2")] ∧
      odLookup [("H3", "id2")] "H3" = some "id2" ∧ recH3.oid = "id2") :=
  ⟨⟨by decide,
    c5_table_consistency.1 srvCreate [] "b/" ⟨"H1", "Host"⟩ recH1 (by decide)⟩,
   ⟨by decide, by decide,
    c5_table_consistency.2.1 delServer1 [("H2", "id2")] [] recH2 recH2
      (by decide) (by decide)⟩,
   ⟨by decide, by decide,
    (c5_table_consistency.2.2 srvRen [("H2", "id2")] [("H3", "id2")] recH2 recH3
      recH3 "H3" (by decide) (by decide) (by decide) (by decide) (by decide)
      (by decide)).1,
    (c5_table_consistency.2.2 srvRen [("H2", "id2")] [("H3", "id2")] recH2 recH3
      recH3 "H3" (by decide) (by decide) (by decide) (by decide) (by decide)
      (by decide)).2.1,
    (c5_table_consistency.2.2 srvRen [("H2", "id2")] [("H3", "id2")] recH2 recH3
      recH3 "H3" (by decide) (by decide) (by decide) (by decide) (by decide)
      (by decide)).2.2⟩⟩

/-- C6: when the declared name of a creation payload is already in
the destination type table, the constructor issues only the GET of
the existing record by its cached identifier, never a POST, and the
resulting record carries the original identifier. -/
theorem c6_create_or_adopt (server : Server) (tbl : NamesT) (base : String)
    (data : ObjData) (oid0 : String) (r : ObjRecord)
    (hlook : odLookup tbl data.name = some oid0)
    (hsrv : server (HReq.get (base ++ lowerPlural data.dtype ++ "/" ++ oid0)) =
      some r)
    (hid : r.oid = oid0) :
    (fpCreate server tbl base data).1 =
      [HReq.get (base ++ lowerPlural data.dtype ++ "/" ++ oid0)] ∧
    (∀ q ∈ (fpCreate server tbl base data).1, ∀ u nm, q ≠ HReq.post u nm) ∧
    (∃ r2, (fpCreate server tbl base data).2.1 = some r2 ∧ r2.oid = oid0) := by
  have hres : fpCreate server tbl base data =
      ([HReq.get (base ++ lowerPlural data.dtype ++ "/" ++ oid0)], some r,
        odSet tbl r.name r.oid) := by
    simp only [fpCreate, reqJson, hlook, hsrv]
  rw [hres]
  refine ⟨rfl, ?_, ⟨r, rfl, hid⟩⟩
  intro q hq u nm
  rw [List.mem_singleton] at hq
  subst hq
  intro e
  exact HReq.noConfusion e

/-- C6 witness: creating a duplicate H1 against a table that already
maps H1 to 7 issues only the GET of b/hosts/7 and adopts id 7. -/
theorem c6_witness :
    odLookup [("H1", "7")] "H1" = some "7" ∧
    srvH1 (HReq.get ("b/" ++ lowerPlural "Host" ++ "/" ++ "7")) = some recH1 ∧
    (fpCreate srvH1 [("H1", "7")] "b/" ⟨"H1", "Host"⟩).1 =
      [HReq.get ("b/" ++ lowerPlural "Host" ++ "/" ++ "7")] ∧
    (∃ r2, (fpCreate srvH1 [("H1", "7")] "b/" ⟨"H1", "Host"⟩).2.1 = some r2 ∧
      r2.oid = "7") :=
  ⟨by decide, by decide,
   (c6_create_or_adopt srvH1 [("H1", "7")] "b/" ⟨"H1", "Host"⟩ "7" recH1
     (by decide) (by decide) (by decide)).1,
   (c6_create_or_adopt srvH1 [("H1", "7")] "b/" ⟨"H1", "Host"⟩ "7" recH1
     (by decide) (by decide) (by decide)).2.2⟩

/-- C8 counterexample: after a successful delete of H2 removes its
table entry, a second delete() on the same entity issues another
DELETE request against the stale self link and returns without any
already-deleted error (the model has no Deleted state at all). -/
theorem c8_counterexample :
    (fpDelete delServer1 [("H2", "id2")] recH2).2 = some [] ∧
    (fpDelete delServer2 [] recH2).1 = [HReq.del "u/host/id2"] ∧
    (fpDelete delServer2 [] recH2).2 = some [] := by
  exact ⟨by decide, by decide, by decide⟩

/-- C8 amended: a successful delete removes the entry from the owning
table, but the entity records no Deleted state: a further delete
issues another DELETE against the same self link and, on the empty
response for the now-absent record, returns without error and leaves
the table unchanged. -/
theorem c8_delete_protocol_amended :
    (∀ (server : Server) (tbl tbl2 : NamesT) (json r : ObjRecord),
      server (HReq.del json.links) = some r →
      (fpDelete server tbl json).2 = some tbl2 → json.name ∉ odKeys tbl2) ∧
    (∀ (server : Server) (tbl : NamesT) (json : ObjRecord),
      server (HReq.del json.links) = none →
      fpDelete server tbl json = ([HReq.del json.links], some tbl)) := by
  constructor
  · intro server tbl tbl2 json r hsrv h
    simp only [fpDelete, hsrv] at h
    rw [odPopE] at h
    by_cases hm : (odLookup tbl json.name).isSome = true
    · rw [if_pos hm] at h
      obtain rfl : odPop tbl json.name = tbl2 := Option.some.inj h
      exact not_mem_odKeys_odPop tbl json.name
    · rw [if_neg hm] at h
      exact absurd h (by simp)
  · intro server tbl json hsrv
    simp only [fpDelete, hsrv]

/-- C8 witness: the first delete of H2 leaves no H2 entry, and the
repeated delete issues the DELETE again and returns the table as is. -/
theorem c8_witness :
    (delServer1 (HReq.del recH2.links) = some recH2 ∧
      (fpDelete delServer1 [("H2", "id2")] recH2).2 = some [] ∧
      recH2.name ∉ odKeys ([] : NamesT)) ∧
    (delServer2 (HReq.del recH2.links) = none ∧
      fpDelete delServer2 [] recH2 = ([HReq.del recH2.links], some [])) :=
  ⟨⟨by decide, by decide,
    c8_delete_protocol_amended.1 delServer1 [("H2", "id2")] [] recH2 recH2
      (by decide) (by decide)⟩,
   ⟨by decide, c8_delete_protocol_amended.2 delServer2 [] recH2 (by decide)⟩⟩

/-- C9: hydrating an FPObject from a pre-fetched record (type and
json given) issues no request and writes name to id into the type
table unconditionally, overwriting any existing entry for that name
(last write wins on this path), in contrast with add_child_first
whose guarded insertion never overwrites an existing entry. -/
theorem c9_hydration_overwrite :
    (∀ (tbl : NamesT) (j : ObjRecord), (fpFromJson tbl j).1 = []) ∧
    (∀ (tbl : NamesT) (j : ObjRecord),
      odLookup (fpFromJson tbl j).2 j.name = some j.oid) ∧
    (∀ (T : String) (t : ObjTree) (ns : NamesT) (n v : String),
      odLookup ns n = some v → odLookup (addChildFirst T t ns) n = some v) := by
  refine ⟨fun tbl j => rfl, ?_, ?_⟩
  · intro tbl j
    show odLookup (odSet tbl j.name j.oid) j.name = some j.oid
    rw [odLookup_odSet]
    simp
  · intro T t ns n v h
    obtain ⟨d, hd⟩ := acf_prefix T t ns
    rw [hd]
    exact odLookup_append_some d h

/-- C9 witness: hydration overwrites the stale H1 entry with id 7 and
issues nothing, while add_child_first keeps a pre-existing G1 entry. -/
theorem c9_witness :
    (fpFromJson [("H1", "old")] recH1).1 = [] ∧
    odLookup (fpFromJson [("H1", "old")] recH1).2 "H1" = some "7" ∧
    (odLookup [("G1", "X")] "G1" = some "X" ∧
      odLookup (addChildFirst "networkgroups" treeG1 [("G1", "X")]) "G1" =
        some "X") :=
  ⟨c9_hydration_overwrite.1 [("H1", "old")] recH1,
   c9_hydration_overwrite.2.1 [("H1", "old")] recH1,
   by decide,
   c9_hydration_overwrite.2.2 "networkgroups" treeG1 [("G1", "X")] "G1" "X"
     (by decide)⟩

theorem ctfold_no_match (childName : String) :
    ∀ (l : List ChildRef) (acc : String),
      (∀ c ∈ l, ¬c.name = childName) →
      l.foldl (fun acc c => if c.name = childName then c.ctype else acc) acc = acc
  | [], _, _ => rfl
  | c :: cs, acc, h => by
    rw [List.foldl_cons, if_neg (h c (List.mem_cons_self c cs))]
    exact ctfold_no_match childName cs acc (fun x hx => h x (List.mem_cons_of_mem c hx))

theorem ctfold_match (childName : String) :
    ∀ (l : List ChildRef) (acc : String),
      (∀ c ∈ l, c.ctype ≠ "") → (∃ c ∈ l, c.name = childName) →
      l.foldl (fun acc c => if c.name = childName then c.ctype else acc) acc ≠ ""
  | [], _, _, hex => by simp at hex
  | c :: cs, acc, hty, hex => by
    rw [List.foldl_cons]
    by_cases hc : c.name = childName
    · rw [if_pos hc]
      by_cases hcs : ∃ x ∈ cs, x.name = childName
      · exact ctfold_match childName cs c.ctype
          (fun x hx => hty x (List.mem_cons_of_mem c hx)) hcs
      · rw [ctfold_no_match childName cs c.ctype (fun x hx hn => hcs ⟨x, hx, hn⟩)]
        exact hty c (List.mem_cons_self c cs)
    · rw [if_neg hc]
      have hcs : ∃ x ∈ cs, x.name = childName := by
        obtain ⟨x, hx, hn⟩ := hex
        rcases List.mem_cons.mp hx with e | hx2
        · exact absurd (e ▸ hn) hc
        · exact ⟨x, hx2, hn⟩
      exact ctfold_match childName cs acc
        (fun x hx => hty x (List.mem_cons_of_mem c hx)) hcs

/-- C10: remove_child issues the PUT exactly when the freshly
refreshed record holds an objects list containing an entry with the
child name (child descriptors carrying their nonempty server type);
otherwise, including when the objects key is absent and the unguarded
pop raises, no write is issued and the held record stays the
refreshed one; the owning table is untouched in every case. -/
theorem c10_remove_child_guard (server : Server) (tbl : NamesT)
    (json r : ObjRecord) (childName : String)
    (href : server (HReq.get json.links) = some r)
    (hty : ∀ c ∈ r.objects.getD [], c.ctype ≠ "") :
    ((HReq.put r.links ∈ (removeChild server tbl json childName).1) ↔
      (∃ l, r.objects = some l ∧ ∃ c ∈ l, c.name = childName)) ∧
    (removeChild server tbl json childName).2.2.1 = tbl ∧
    (¬(∃ l, r.objects = some l ∧ ∃ c ∈ l, c.name = childName) →
      (removeChild server tbl json childName).1 = [HReq.get json.links] ∧
      (removeChild server tbl json childName).2.1 = some r) := by
  cases hobj : r.objects with
  | none =>
    have hred : removeChild server tbl json childName =
        ([HReq.get json.links], some r, tbl, false) := by
      simp only [removeChild, href, hobj]
    rw [hred]
    refine ⟨?_, rfl, fun _ => ⟨rfl, rfl⟩⟩
    constructor
    · intro hmem
      rw [List.mem_singleton] at hmem
      exact absurd hmem (fun e => HReq.noConfusion e)
    · rintro ⟨l, hl, _⟩
      exact Option.noConfusion hl
  | some l =>
    have hty2 : ∀ c ∈ l, c.ctype ≠ "" := by
      intro c hc
      refine hty c ?_
      rw [hobj]
      exact hc
    by_cases hex : ∃ c ∈ l, c.name = childName
    · have hct : l.foldl (fun acc c => if c.name = childName then c.ctype else acc)
          "" ≠ "" := ctfold_match childName l "" hty2 hex
      cases hput : server (HReq.put r.links) with
      | some r2 =>
        have hred : removeChild server tbl json childName =
            ([HReq.get json.links, HReq.put r.links], some r2, tbl, true) := by
          simp only [removeChild, href, hobj, if_neg hct, hput]
        rw [hred]
        refine ⟨?_, rfl, fun hnex => absurd ⟨l, rfl, hex⟩ hnex⟩
        constructor
        · intro _
          exact ⟨l, rfl, hex⟩
        · intro _
          exact List.mem_cons_of_mem _ (List.mem_cons_self _ _)
      | none =>
        have hred : removeChild server tbl json childName =
            ([HReq.get json.links, HReq.put r.links], some r, tbl, true) := by
          simp only [removeChild, href, hobj, if_neg hct, hput]
        rw [hred]
        refine ⟨?_, rfl, fun hnex => absurd ⟨l, rfl, hex⟩ hnex⟩
        constructor
        · intro _
          exact ⟨l, rfl, hex⟩
        · intro _
          exact List.mem_cons_of_mem _ (List.mem_cons_self _ _)
    · have hct : l.foldl (fun acc c => if c.name = childName then c.ctype else acc)
          "" = "" := ctfold_no_match childName l "" (fun x hx hn => hex ⟨x, hx, hn⟩)
      have hred : removeChild server tbl json childName =
          ([HReq.get json.links], some r, tbl, true) := by
        simp only [removeChild, href, hobj, hct, eq_self_iff_true, if_true]
      rw [hred]
      refine ⟨?_, rfl, fun _ => ⟨rfl, rfl⟩⟩
      constructor
      · intro hmem
        rw [List.mem_singleton] at hmem
        exact absurd hmem (fun e => HReq.noConfusion e)
      · rintro ⟨l2, hl2, hex2⟩
        obtain rfl : l = l2 := Option.some.inj hl2
        exact absurd hex2 hex

/-- C10 witness: on the concrete group record holding child H1, the
PUT is issued for child name H1 and the table is untouched. -/
theorem c10_witness :
    srvRC (HReq.get recG1rec.links) = some recG1rec ∧
    (∀ c ∈ recG1rec.objects.getD [], c.ctype ≠ "") ∧
    ((HReq.put recG1rec.links ∈ (removeChild srvRC [] recG1rec "H1").1) ↔
      (∃ l, recG1rec.objects = some l ∧ ∃ c ∈ l, c.name = "H1")) ∧
    (removeChild srvRC [] recG1rec "H1").2.2.1 = [] :=
  ⟨by decide, by decide,
   (c10_remove_child_guard srvRC [] recG1rec recG1rec "H1" (by decide)
     (by decide)).1,
   (c10_remove_child_guard srvRC [] recG1rec recG1rec "H1" (by decide)
     (by decide)).2.1⟩

end Fmc
